import Mathlib

/-!
# Verification of the MoriaJS route / middleware resolution and OAuth callback

This development shallowly embeds the pure core of the MoriaJS framework:

* `packages/core/src/router.ts` — `filePathToUrlPath`, the pure part of
  `scanRoutes` (per-module route construction, with the dynamic module
  loading modelled as an oracle `Str → Option (RouteModule H)`, `none`
  meaning the load threw);
* `packages/core/src/middleware.ts` — `scanMiddleware` (again with an import
  oracle) and `getMiddlewareChain`;
* `packages/auth/src/index.ts` — the OAuth callback handler registered by
  `registerOAuthRoutes`, with the provider's `exchangeCode` / `fetchProfile`
  network calls modelled as oracles (`none` meaning the call threw).

JavaScript strings are modelled as lists of characters (`Str := List Char`);
the handful of regular expressions used by the source are implemented as
recursive scanners with the exact leftmost, continue-after-match semantics of
`String.prototype.replace` with a global regex.  `Array.prototype.sort` (which
ES2019 requires to be stable) is modelled by `List.insertionSort`, which is
stable and sorts by the comparator's induced `≤`.
-/

set_option maxHeartbeats 1000000
set_option autoImplicit false

namespace Moria

/-- JavaScript strings are modelled as lists of characters. -/
abbrev Str := List Char

/-! ## Generic string helpers (models of JS string methods) -/

/-- Model of `String.prototype.split` with a single-character separator:
`''.split(c) = ['']`, separators delimit possibly-empty chunks. -/
def splitOnChar (sep : Char) : Str → List Str
  | [] => [[]]
  | c :: r =>
    if c = sep then [] :: splitOnChar sep r
    else (c :: (splitOnChar sep r).headI) :: (splitOnChar sep r).tail

theorem splitOnChar_ne_nil (sep : Char) : ∀ s : Str, splitOnChar sep s ≠ []
  | [] => by simp [splitOnChar]
  | c :: r => by
    by_cases h : c = sep <;> simp [splitOnChar, h]

/-- Model of `String.prototype.trim` (ASCII whitespace suffices here). -/
def trimStr (s : Str) : Str :=
  (((s.dropWhile Char.isWhitespace).reverse.dropWhile Char.isWhitespace)).reverse

/-! ## `path.posix.dirname`

Node's implementation scans the path from the end: it skips trailing slashes,
then the basename, and cuts at the slash found there (never at index 0); with
no such slash the result is `'.'` (or `'/'` for an absolute path), and an
absolute path cut at index 1 yields `'//'`.  The definition below computes the
same scan on the reversed character list. -/
def dirname (p : Str) : Str :=
  if p = [] then ['.']
  else
    let b := (p.reverse.dropWhile (· == '/')).dropWhile (· != '/')
    if 2 ≤ b.length then
      if p.head? = some '/' ∧ b.length = 2 then ['/', '/'] else b.tail.reverse
    else if p.head? = some '/' then ['/'] else ['.']

/-! ## `filePathToUrlPath` (router.ts)

The source applies, in order: extension strip, backslash normalisation, the
`[param] → :param` rewrite, the `[...slug] → *` rewrite, the `pages/` prefix
strip, the trailing `/index` strip, the leading-slash fix and the root case. -/

/-- `route.replace(/\.(ts|js|mts|mjs)$/, '')`: at most one of the four
extensions can be a suffix, so the anchored regex strips exactly it. -/
def stripExt (l : Str) : Str :=
  if (".mts".data.reverse).isPrefixOf l.reverse then (l.reverse.drop 4).reverse
  else if (".mjs".data.reverse).isPrefixOf l.reverse then (l.reverse.drop 4).reverse
  else if (".ts".data.reverse).isPrefixOf l.reverse then (l.reverse.drop 3).reverse
  else if (".js".data.reverse).isPrefixOf l.reverse then (l.reverse.drop 3).reverse
  else l

/-- `route.replace(/\\/g, '/')`. -/
def normSep (l : Str) : Str := l.map fun c => if c = '\\' then '/' else c

/-- The run `[^\].]+` of the `[param]` regex. -/
def paramRun (r : Str) : Str := r.takeWhile fun d => !(d == ']') && !(d == '.')

/-- What remains of the scan after `paramRun`. -/
def paramRest (r : Str) : Str := r.dropWhile fun d => !(d == ']') && !(d == '.')

/-- Fueled scanner for `route.replace(/\[([^\].]+)\]/g, ':$1')`: at a `[`,
a nonempty run of characters other than `]` and `.` followed by `]` is a
match (the greedy run cannot backtrack into a shorter successful one); the
scan resumes after the match, otherwise one character later. -/
def replaceParamF : Nat → Str → Str
  | 0, s => s
  | _ + 1, [] => []
  | fuel + 1, c :: r =>
    if c = '[' then
      if paramRun r ≠ [] ∧ (paramRest r).head? = some ']' then
        ':' :: paramRun r ++ replaceParamF fuel (paramRest r).tail
      else c :: replaceParamF fuel r
    else c :: replaceParamF fuel r

def replaceParam (s : Str) : Str := replaceParamF s.length s

/-- The run `[^\]]+` of the `[...slug]` regex. -/
def caRun (r : Str) : Str := r.takeWhile fun d => !(d == ']')

def caRest (r : Str) : Str := r.dropWhile fun d => !(d == ']')

/-- Fueled scanner for `route.replace(/\[\.\.\.([^\]]+)\]/g, '*')`. -/
def replaceCatchAllF : Nat → Str → Str
  | 0, s => s
  | _ + 1, [] => []
  | fuel + 1, c :: r =>
    if c = '[' ∧ r.take 3 = ['.', '.', '.'] then
      if caRun (r.drop 3) ≠ [] ∧ (caRest (r.drop 3)).head? = some ']' then
        '*' :: replaceCatchAllF fuel (caRest (r.drop 3)).tail
      else c :: replaceCatchAllF fuel r
    else c :: replaceCatchAllF fuel r

def replaceCatchAll (s : Str) : Str := replaceCatchAllF s.length s

/-- The characters of `"pages"`. -/
def pagesStr : Str := "pages".data

/-- The characters of `"index"`. -/
def indexStr : Str := "index".data

/-- `if (route.startsWith('pages/')) route = route.slice(5)`. -/
def pagesStrip (route : Str) : Str :=
  if (pagesStr ++ ['/']).isPrefixOf route then route.drop 5 else route

/-- `route.replace(/\/index$/, '')` (non-global, anchored: one strip). -/
def indexStrip (route : Str) : Str :=
  if (('/' :: indexStr).reverse).isPrefixOf route.reverse then
    (route.reverse.drop 6).reverse
  else route

/-- `if (!route.startsWith('/')) route = '/' + route`. -/
def leadingSlash (route : Str) : Str :=
  if route.head? = some '/' then route else '/' :: route

/-- `if (route === '') route = '/'`. -/
def rootCase (route : Str) : Str := if route = [] then ['/'] else route

/-- The tail of the pipeline, after the two bracket rewrites. -/
def urlFinish (route : Str) : Str :=
  rootCase (leadingSlash (indexStrip (pagesStrip route)))

/-- `filePathToUrlPath` from `router.ts`. -/
def filePathToUrlPath (filePath : Str) : Str :=
  urlFinish (replaceCatchAll (replaceParam (normSep (stripExt filePath))))

example : filePathToUrlPath "api/users/[id].ts".data = "/api/users/:id".data := by decide
example : filePathToUrlPath "pages/index.ts".data = "/".data := by decide
example : filePathToUrlPath "pages/about.ts".data = "/about".data := by decide
example : filePathToUrlPath "api/files/[...path].ts".data = "/api/files/*".data := by decide
example : filePathToUrlPath "index.ts".data = "/index".data := by decide
example : dirname "api/hello.ts".data = "api".data := by decide
example : dirname "hello.ts".data = ".".data := by decide

/-! ## Middleware (middleware.ts)

Handlers are JavaScript functions the embedding cannot inspect: they are
modelled by an arbitrary type `H` of handler labels. -/

variable {H : Type}

/-- A resolved middleware entry from a `_middleware.ts` file. -/
structure MiddlewareEntry (H : Type) where
  scope : Str
  urlPrefix : Str
  handlers : List H
deriving DecidableEq

/-- The scope test of `getMiddlewareChain`: root scope, or
`routeDir === entry.scope || routeDir.startsWith(entry.scope + '/')`. -/
def matchesScope (routeDir scope : Str) : Bool :=
  scope == [] || routeDir == scope || (scope ++ ['/']).isPrefixOf routeDir

/-- The accumulation loop of `getMiddlewareChain`. -/
def chainLoop (routeDir : Str) : List (MiddlewareEntry H) → List H
  | [] => []
  | e :: rest =>
    if matchesScope routeDir e.scope then e.handlers ++ chainLoop routeDir rest
    else chainLoop routeDir rest

/-- `getMiddlewareChain` from `middleware.ts`. -/
def getMiddlewareChain (routeFilePath : Str) (entries : List (MiddlewareEntry H)) : List H :=
  chainLoop (dirname routeFilePath) entries

/-- The sort key of `scanMiddleware`:
`scope === '' ? 0 : scope.split('/').length`. -/
def entryDepth (e : MiddlewareEntry H) : Nat :=
  if e.scope = [] then 0 else (splitOnChar '/' e.scope).length

/-- The comparator `(a, b) => depthA - depthB` of `scanMiddleware`, as the
induced `≤` relation. -/
def depthLe (a b : MiddlewareEntry H) : Prop := entryDepth a ≤ entryDepth b

instance : DecidableRel (α := MiddlewareEntry H) depthLe := fun a b =>
  inferInstanceAs (Decidable (entryDepth a ≤ entryDepth b))

instance : IsTotal (MiddlewareEntry H) depthLe := ⟨fun _ _ => Nat.le_total _ _⟩

instance : IsTrans (MiddlewareEntry H) depthLe := ⟨fun _ _ _ => Nat.le_trans⟩

/-- The `urlPrefix` computation of `scanMiddleware` (note the source checks
`startsWith('pages')`, without a trailing slash, and slices off 5 chars). -/
def scopeUrlPrefix (scope : Str) : Str :=
  if scope = [] then ['/']
  else
    let adjusted := if pagesStr.isPrefixOf scope then scope.drop 5 else scope
    let adjusted := if adjusted ≠ [] ∧ adjusted.head? ≠ some '/' then '/' :: adjusted else adjusted
    if adjusted = [] then ['/'] else adjusted

/-- The default export of a `_middleware.ts` module: an array (whose
non-function elements are modelled by `none`), a single function, or
anything else. -/
inductive MWDefault (H : Type) where
  | arr (l : List (Option H))
  | fn (h : H)
  | other

/-- Handler resolution of `scanMiddleware`: arrays are filtered down to their
functions, a lone function becomes a singleton, anything else resolves to
no handlers. -/
def mwHandlers : MWDefault H → List H
  | .arr l => l.filterMap id
  | .fn h => [h]
  | .other => []

/-- Per-file processing of `scanMiddleware`: scope from the dirname
(`'.' ↦ ''`), url prefix, handler resolution; a file with no handlers is
skipped (`none`). -/
def mwEntryFor (file : Str) (d : MWDefault H) : Option (MiddlewareEntry H) :=
  let dir := dirname file
  let scope := if dir = ['.'] then [] else dir
  if (mwHandlers d).isEmpty then none
  else some ⟨scope, scopeUrlPrefix scope, mwHandlers d⟩

/-- `scanMiddleware` from `middleware.ts`.  The `glob` result is the `files`
parameter; the dynamic import is the oracle `imp` (`none` = import threw,
and the file is skipped with a warning).  `entries.sort((a, b) => depthA -
depthB)` is a stable sort (ES2019), modelled by `insertionSort` on the
comparator's `≤`. -/
def scanMiddleware (files : List Str) (imp : Str → Option (MWDefault H)) :
    List (MiddlewareEntry H) :=
  List.insertionSort depthLe (files.filterMap fun f => (imp f).bind (mwEntryFor f))

/-! ## Route scanning (router.ts) -/

inductive Method where
  | GET | POST | PUT | DELETE | PATCH | HEAD | OPTIONS
deriving DecidableEq

/-- `HTTP_METHODS` from `router.ts`, in source order. -/
def HTTP_METHODS : List Method :=
  [.GET, .POST, .PUT, .DELETE, .PATCH, .HEAD, .OPTIONS]

/-- A JavaScript value as far as the route scanner inspects it: a function
(labelled by `H`), an object with / without a `view` member, some other
defined value, or `undefined` (which also stands for `null`, as the two
behave identically under `??` and the `typeof`/`'view' in` tests used
here). -/
inductive JsVal (H : Type) where
  | fn (h : H)
  | objWithView
  | objNoView
  | prim
  | undef
deriving DecidableEq

/-- A route module: the named exports the scanner looks up (uppercase and
lowercase method names), the default export and `getServerData`. -/
structure RouteModule (H : Type) where
  upper : Method → JsVal H
  lower : Method → JsVal H
  default : JsVal H
  getServerData : JsVal H

/-- `typeof v === 'function'` projection. -/
def asFn : JsVal H → Option H
  | .fn h => some h
  | _ => none

/-- `mod[method] ?? mod[method.toLowerCase()]`, then the function test. -/
def resolveMethod (mod : RouteModule H) (m : Method) : Option H :=
  match mod.upper m with
  | .undef => asFn (mod.lower m)
  | v => asFn v

/-- The `for (const method of HTTP_METHODS)` loop that fills `methods`,
as an association list in method order. -/
def buildMethods (mod : RouteModule H) : List (Method × H) :=
  HTTP_METHODS.filterMap fun m => (resolveMethod mod m).map fun h => (m, h)

/-- The API-route extra step: `if (typeof mod.default === 'function' &&
!methods.get) methods.get = mod.default`. -/
def apiMethods (mod : RouteModule H) : List (Method × H) :=
  let methods := buildMethods mod
  match asFn mod.default with
  | some d => if (methods.lookup Method.GET).isNone then methods ++ [(Method.GET, d)]
              else methods
  | none => methods

inductive RType where
  | api | page
deriving DecidableEq

/-- A discovered route entry (`RouteEntry` in `router.ts`); `methods` is the
method → handler map as an association list. -/
structure RouteEntry (H : Type) where
  filePath : Str
  urlPath : Str
  type : RType
  methods : List (Method × H)
  component : Option (JsVal H) := none
  getServerData : Option H := none
deriving DecidableEq

/-- Per-file processing of `scanRoutes`: page routes take a `view` component
or a default function or named handlers; API routes take named handlers with
the default-export GET fallback; a module yielding nothing is skipped. -/
def routeFor (file : Str) (mod : RouteModule H) : Option (RouteEntry H) :=
  let urlPath := filePathToUrlPath file
  if ("api/".data).isPrefixOf file then
    let methods := apiMethods mod
    if methods.isEmpty then none
    else some { filePath := file, urlPath := urlPath, type := .api, methods := methods }
  else
    match mod.default with
    | .objWithView =>
      some { filePath := file, urlPath := urlPath, type := .page, methods := [],
             component := some .objWithView, getServerData := asFn mod.getServerData }
    | .fn h =>
      some { filePath := file, urlPath := urlPath, type := .page,
             methods := [(Method.GET, h)] }
    | _ =>
      let methods := buildMethods mod
      if methods.isEmpty then none
      else some { filePath := file, urlPath := urlPath, type := .page, methods := methods }

/-- `scanRoutes` from `router.ts`: the `glob` result is `files`, and the
dynamic import is the oracle `imp` (`none` = import threw: warn, skip). -/
def scanRoutes (files : List Str) (imp : Str → Option (RouteModule H)) :
    List (RouteEntry H) :=
  files.filterMap fun f => (imp f).bind (routeFor f)

/-! ## OAuth callback handler (auth/src/index.ts) -/

/-- The query parameters the callback reads (`none` = parameter absent). -/
structure CallbackQuery where
  code : Option Str
  state : Option Str
  error : Option Str
deriving DecidableEq

/-- The provider/server calls the claim tracks. -/
inductive OAuthCall where
  | exchangeCode | fetchProfile | signIn
deriving DecidableEq

/-- What a callback invocation did: which calls ran, and where it
redirected. -/
structure CallbackOutcome where
  calls : List OAuthCall
  redirect : Str
deriving DecidableEq

/-- JS truthiness of an optional string. -/
def truthy : Option Str → Bool
  | none => false
  | some s => !s.isEmpty

/-- `'moria_oauth_state='`. -/
def stateCookiePrefix : Str := "moria_oauth_state=".data

/-- `cookieHeader.split(';').map(trim).find(startsWith('moria_oauth_state='))`. -/
def findStateCookie (cookieHeader : Str) : Option Str :=
  ((splitOnChar ';' cookieHeader).map trimStr).find? fun c => stateCookiePrefix.isPrefixOf c

/-- `stateCookie?.split('=')[1]`. -/
def savedStateOf (cookieHeader : Str) : Option Str :=
  (findStateCookie cookieHeader).bind fun c => (splitOnChar '=' c)[1]?

/-- The state check: `!(!savedState || savedState !== query.state)`. -/
def stateOk (q : CallbackQuery) (cookieHeader : Str) : Bool :=
  match savedStateOf cookieHeader with
  | none => false
  | some s => !s.isEmpty && q.state == some s

/-- The value of the `moria_oauth_state` cookie as the spec reads it:
everything after the `name=` prefix of the matching cookie. -/
def oauthStateCookieValue (cookieHeader : Str) : Option Str :=
  (findStateCookie cookieHeader).map fun c => c.drop stateCookiePrefix.length

/-- The callback handler of `registerOAuthRoutes`, as a function of the
request data and of oracles for the provider calls (`none` = the call threw,
landing in the `catch` that redirects to the failure URL).  `signIn` is the
last step and is modelled as succeeding. -/
def oauthCallback (q : CallbackQuery) (cookieHeader failureUrl successUrl : Str)
    (exchange : Str → Option Str) (profile : Str → Option Str) : CallbackOutcome :=
  if truthy q.error || !truthy q.code then ⟨[], failureUrl⟩
  else if !stateOk q cookieHeader then ⟨[], failureUrl⟩
  else
    match exchange (q.code.getD []) with
    | none => ⟨[.exchangeCode], failureUrl⟩
    | some tok =>
      match profile tok with
      | none => ⟨[.exchangeCode, .fetchProfile], failureUrl⟩
      | some _ => ⟨[.exchangeCode, .fetchProfile, .signIn], successUrl⟩

example :
    oauthCallback ⟨some ['x'], some "abc".data, none⟩
      "moria_oauth_state=abc".data "/f".data "/s".data
      (fun _ => some ['t']) (fun _ => some ['u'])
      = ⟨[.exchangeCode, .fetchProfile, .signIn], "/s".data⟩ := by decide

example :
    oauthCallback ⟨some ['x'], some "abc".data, none⟩
      "moria_oauth_state=zzz".data "/f".data "/s".data
      (fun _ => some ['t']) (fun _ => some ['u'])
      = ⟨[], "/f".data⟩ := by decide

/-! ## Equation lemmas for the fueled regex scanners -/

theorem replaceParamF_cons (fuel : Nat) (c : Char) (r : Str) :
    replaceParamF (fuel + 1) (c :: r) =
      if c = '[' then
        if paramRun r ≠ [] ∧ (paramRest r).head? = some ']' then
          ':' :: paramRun r ++ replaceParamF fuel (paramRest r).tail
        else c :: replaceParamF fuel r
      else c :: replaceParamF fuel r := rfl

theorem paramRest_tail_length_le (r : Str) : (paramRest r).tail.length ≤ r.length := by
  have h1 : (paramRest r).length ≤ r.length := (List.dropWhile_sublist _).length_le
  have h2 : (paramRest r).tail.length ≤ (paramRest r).length := by
    cases paramRest r <;> simp
  exact le_trans h2 h1

theorem replaceParamF_fuel : ∀ (f g : Nat) (s : Str), s.length ≤ f → s.length ≤ g →
    replaceParamF f s = replaceParamF g s := by
  intro f
  induction f with
  | zero =>
    intro g s hf _
    have hs : s = [] := List.length_eq_zero.mp (Nat.le_zero.mp hf)
    subst hs
    cases g <;> rfl
  | succ f ih =>
    intro g s hf hg
    cases s with
    | nil => cases g <;> rfl
    | cons c r =>
      cases g with
      | zero => exact absurd hg (by simp)
      | succ g =>
        have hr : r.length ≤ f := by simpa using hf
        have hrg : r.length ≤ g := by simpa using hg
        rw [replaceParamF_cons, replaceParamF_cons]
        by_cases hc : c = '['
        · by_cases hm : paramRun r ≠ [] ∧ (paramRest r).head? = some ']'
          · have hlen := paramRest_tail_length_le r
            rw [if_pos hc, if_pos hc, if_pos hm, if_pos hm,
              ih g _ (le_trans hlen hr) (le_trans hlen hrg)]
          · rw [if_pos hc, if_pos hc, if_neg hm, if_neg hm, ih g r hr hrg]
        · rw [if_neg hc, if_neg hc, ih g r hr hrg]

theorem replaceParam_cons_ne {c : Char} (h : c ≠ '[') (r : Str) :
    replaceParam (c :: r) = c :: replaceParam r := by
  rw [replaceParam, show (c :: r).length = r.length + 1 from rfl,
    replaceParamF_cons, if_neg h]
  rfl

theorem replaceParam_bracket_match {r : Str} (h1 : paramRun r ≠ [])
    (h2 : (paramRest r).head? = some ']') :
    replaceParam ('[' :: r) = ':' :: paramRun r ++ replaceParam (paramRest r).tail := by
  rw [replaceParam, show ('[' :: r).length = r.length + 1 from rfl,
    replaceParamF_cons, if_pos rfl, if_pos (And.intro h1 h2),
    replaceParamF_fuel r.length _ _ (paramRest_tail_length_le r) le_rfl]
  rfl

theorem replaceParam_bracket_nomatch {r : Str}
    (h : ¬(paramRun r ≠ [] ∧ (paramRest r).head? = some ']')) :
    replaceParam ('[' :: r) = '[' :: replaceParam r := by
  rw [replaceParam, show ('[' :: r).length = r.length + 1 from rfl,
    replaceParamF_cons, if_pos rfl, if_neg h]
  rfl

theorem replaceParam_clean_append {s : Str} (h : ∀ c ∈ s, c ≠ '[') (t : Str) :
    replaceParam (s ++ t) = s ++ replaceParam t := by
  induction s with
  | nil => simp
  | cons c r ih =>
    have hc : c ≠ '[' := h c (by simp)
    rw [List.cons_append, replaceParam_cons_ne hc, ih (fun d hd => h d (by simp [hd]))]
    rfl

theorem paramRun_paramRest_append {n t : Str} (h : ∀ c ∈ n, c ≠ ']' ∧ c ≠ '.') :
    paramRun (n ++ ']' :: t) = n ∧ paramRest (n ++ ']' :: t) = ']' :: t := by
  have hp : ∀ c ∈ n, (!(c == ']') && !(c == '.')) = true := by
    intro c hc
    have hcc := h c hc
    simp only [Bool.and_eq_true, Bool.not_eq_true', beq_eq_false_iff_ne]
    exact hcc
  constructor
  · rw [paramRun, List.takeWhile_append_of_pos hp]
    simp [List.takeWhile_cons]
  · rw [paramRest, List.dropWhile_append_of_pos hp]
    simp [List.dropWhile_cons]

theorem replaceParam_param {n t : Str} (hn : n ≠ [])
    (h : ∀ c ∈ n, c ≠ ']' ∧ c ≠ '.') :
    replaceParam ('[' :: (n ++ ']' :: t)) = ':' :: n ++ replaceParam t := by
  obtain ⟨h1, h2⟩ := paramRun_paramRest_append (t := t) h
  rw [replaceParam_bracket_match (by rw [h1]; exact hn) (by rw [h2]; rfl)]
  rw [h1, h2]
  rfl

theorem replaceParam_catchAll_seg {n t : Str} (h : ∀ c ∈ n, c ≠ '[') :
    replaceParam ('[' :: ('.' :: '.' :: '.' :: (n ++ ']' :: t)))
      = '[' :: '.' :: '.' :: '.' :: (n ++ ']' :: replaceParam t) := by
  have hrun : paramRun ('.' :: '.' :: '.' :: (n ++ ']' :: t)) = [] := by
    simp [paramRun, List.takeWhile_cons]
  rw [replaceParam_bracket_nomatch (by simp [hrun])]
  rw [replaceParam_cons_ne (by decide), replaceParam_cons_ne (by decide),
      replaceParam_cons_ne (by decide)]
  have hclean : ∀ c ∈ n ++ [']'], c ≠ '[' := by
    intro c hc
    rcases List.mem_append.mp hc with h1 | h1
    · exact h c h1
    · simp at h1; subst h1; decide
  have hstep := replaceParam_clean_append hclean t
  simp only [List.append_assoc, List.singleton_append] at hstep
  rw [hstep]

theorem replaceCatchAllF_cons (fuel : Nat) (c : Char) (r : Str) :
    replaceCatchAllF (fuel + 1) (c :: r) =
      if c = '[' ∧ r.take 3 = ['.', '.', '.'] then
        if caRun (r.drop 3) ≠ [] ∧ (caRest (r.drop 3)).head? = some ']' then
          '*' :: replaceCatchAllF fuel (caRest (r.drop 3)).tail
        else c :: replaceCatchAllF fuel r
      else c :: replaceCatchAllF fuel r := rfl

theorem caRest_tail_length_le (r : Str) :
    (caRest (r.drop 3)).tail.length ≤ r.length := by
  have h1 : (caRest (r.drop 3)).length ≤ (r.drop 3).length :=
    (List.dropWhile_sublist _).length_le
  have h2 : (caRest (r.drop 3)).tail.length ≤ (caRest (r.drop 3)).length := by
    cases caRest (r.drop 3) <;> simp
  have h3 : (r.drop 3).length ≤ r.length := by simp
  omega

theorem replaceCatchAllF_fuel : ∀ (f g : Nat) (s : Str), s.length ≤ f → s.length ≤ g →
    replaceCatchAllF f s = replaceCatchAllF g s := by
  intro f
  induction f with
  | zero =>
    intro g s hf _
    have hs : s = [] := List.length_eq_zero.mp (Nat.le_zero.mp hf)
    subst hs
    cases g <;> rfl
  | succ f ih =>
    intro g s hf hg
    cases s with
    | nil => cases g <;> rfl
    | cons c r =>
      cases g with
      | zero => exact absurd hg (by simp)
      | succ g =>
        have hr : r.length ≤ f := by simpa using hf
        have hrg : r.length ≤ g := by simpa using hg
        rw [replaceCatchAllF_cons, replaceCatchAllF_cons]
        by_cases hc : c = '[' ∧ r.take 3 = ['.', '.', '.']
        · by_cases hm : caRun (r.drop 3) ≠ [] ∧ (caRest (r.drop 3)).head? = some ']'
          · have hlen := caRest_tail_length_le r
            rw [if_pos hc, if_pos hc, if_pos hm, if_pos hm,
              ih g _ (le_trans hlen hr) (le_trans hlen hrg)]
          · rw [if_pos hc, if_pos hc, if_neg hm, if_neg hm, ih g r hr hrg]
        · rw [if_neg hc, if_neg hc, ih g r hr hrg]

theorem replaceCatchAll_cons_ne {c : Char} (h : c ≠ '[') (r : Str) :
    replaceCatchAll (c :: r) = c :: replaceCatchAll r := by
  rw [replaceCatchAll, show (c :: r).length = r.length + 1 from rfl,
    replaceCatchAllF_cons, if_neg (fun hc => h hc.1)]
  rfl

theorem replaceCatchAll_clean_append {s : Str} (h : ∀ c ∈ s, c ≠ '[') (t : Str) :
    replaceCatchAll (s ++ t) = s ++ replaceCatchAll t := by
  induction s with
  | nil => simp
  | cons c r ih =>
    have hc : c ≠ '[' := h c (by simp)
    rw [List.cons_append, replaceCatchAll_cons_ne hc, ih (fun d hd => h d (by simp [hd]))]
    rfl

theorem caRun_caRest_append {n t : Str} (h : ∀ c ∈ n, c ≠ ']') :
    caRun (n ++ ']' :: t) = n ∧ caRest (n ++ ']' :: t) = ']' :: t := by
  have hp : ∀ c ∈ n, (!(c == ']')) = true := by
    intro c hc
    simp only [Bool.not_eq_true', beq_eq_false_iff_ne]
    exact h c hc
  constructor
  · rw [caRun, List.takeWhile_append_of_pos hp]
    simp [List.takeWhile_cons]
  · rw [caRest, List.dropWhile_append_of_pos hp]
    simp [List.dropWhile_cons]

theorem replaceCatchAll_catchAll {n t : Str} (hn : n ≠ []) (h : ∀ c ∈ n, c ≠ ']') :
    replaceCatchAll ('[' :: ('.' :: '.' :: '.' :: (n ++ ']' :: t)))
      = '*' :: replaceCatchAll t := by
  obtain ⟨h1, h2⟩ := caRun_caRest_append (t := t) h
  have hdrop : ('.' :: '.' :: '.' :: (n ++ ']' :: t)).drop 3 = n ++ ']' :: t := rfl
  have hm : caRun (('.' :: '.' :: '.' :: (n ++ ']' :: t)).drop 3) ≠ [] ∧
      (caRest (('.' :: '.' :: '.' :: (n ++ ']' :: t)).drop 3)).head? = some ']' := by
    rw [hdrop, h1, h2]
    exact ⟨hn, rfl⟩
  have hcond : ('[' : Char) = '[' ∧
      ('.' :: '.' :: '.' :: (n ++ ']' :: t)).take 3 = ['.', '.', '.'] := ⟨rfl, rfl⟩
  rw [replaceCatchAll,
    show ('[' :: ('.' :: '.' :: '.' :: (n ++ ']' :: t))).length
      = ('.' :: '.' :: '.' :: (n ++ ']' :: t)).length + 1 from rfl,
    replaceCatchAllF_cons, if_pos hcond, if_pos hm, hdrop, h2]
  simp only [List.tail_cons]
  rw [replaceCatchAllF_fuel _ t.length t (by simp; omega) le_rfl]
  rfl

/-! ## Well-formed route paths as segment lists

A route file path is an ext-suffixed `/`-join of segments: plain names,
`[param]` segments or `[...slug]` segments.  Well-formedness rules out the
characters that would make a segment interfere with a neighbouring one
(path separators, backslashes, brackets inside names, dots inside `[param]`
names — exactly the shapes the file-routing convention uses). -/

inductive RouteSeg where
  | plain (s : Str)
  | param (n : Str)
  | catchAll (n : Str)
deriving DecidableEq

/-- The characters a segment contributes to the file path. -/
def segStr : RouteSeg → Str
  | .plain s => s
  | .param n => '[' :: (n ++ [']'])
  | .catchAll n => '[' :: ('.' :: '.' :: '.' :: (n ++ [']']))

/-- The characters a segment contributes to the URL pattern. -/
def rewriteSeg : RouteSeg → Str
  | .plain s => s
  | .param n => ':' :: n
  | .catchAll _ => ['*']

/-- A segment after the `[param]` pass but before the `[...slug]` pass. -/
def paramStep : RouteSeg → Str
  | .plain s => s
  | .param n => ':' :: n
  | .catchAll n => segStr (.catchAll n)

/-- Join chunks with a separator (the shape of `'/'`-joined paths). -/
def joinWith (sep : Str) : List Str → Str
  | [] => []
  | [x] => x
  | x :: y :: rest => x ++ sep ++ joinWith sep (y :: rest)

def joinSegs (segs : List RouteSeg) : Str := joinWith ['/'] (segs.map segStr)

def rewriteSegs (segs : List RouteSeg) : Str := joinWith ['/'] (segs.map rewriteSeg)

def goodChar (c : Char) : Prop := c ≠ '/' ∧ c ≠ '\\' ∧ c ≠ '[' ∧ c ≠ ']'

instance : DecidablePred goodChar := fun _ =>
  inferInstanceAs (Decidable (_ ∧ _ ∧ _ ∧ _))

def segWF : RouteSeg → Prop
  | .plain s => s ≠ [] ∧ ∀ c ∈ s, goodChar c
  | .param n => n ≠ [] ∧ ∀ c ∈ n, goodChar c ∧ c ≠ '.'
  | .catchAll n => n ≠ [] ∧ ∀ c ∈ n, goodChar c

instance : DecidablePred segWF := fun s =>
  match s with
  | .plain _ => inferInstanceAs (Decidable (_ ∧ _))
  | .param _ => inferInstanceAs (Decidable (_ ∧ _))
  | .catchAll _ => inferInstanceAs (Decidable (_ ∧ _))

/-- The four extensions of the route glob / the strip regex. -/
def extCandidates : List Str := [".ts".data, ".js".data, ".mts".data, ".mjs".data]

theorem stripExt_ts (x : Str) : stripExt (x ++ ['.', 't', 's']) = x := by
  have hrev : (x ++ ['.', 't', 's']).reverse = 's' :: 't' :: '.' :: x.reverse := by simp
  have h1 : (".mts".data.reverse).isPrefixOf ('s' :: 't' :: '.' :: x.reverse) = false := rfl
  have h2 : (".mjs".data.reverse).isPrefixOf ('s' :: 't' :: '.' :: x.reverse) = false := rfl
  have h3 : (".ts".data.reverse).isPrefixOf ('s' :: 't' :: '.' :: x.reverse) = true := by
    simp [show (".ts".data.reverse : Str) = ['s', 't', '.'] from rfl, List.isPrefixOf]
  rw [stripExt, hrev, h1, h2, h3]
  simp

theorem stripExt_js (x : Str) : stripExt (x ++ ['.', 'j', 's']) = x := by
  have hrev : (x ++ ['.', 'j', 's']).reverse = 's' :: 'j' :: '.' :: x.reverse := by simp
  have h1 : (".mts".data.reverse).isPrefixOf ('s' :: 'j' :: '.' :: x.reverse) = false := rfl
  have h2 : (".mjs".data.reverse).isPrefixOf ('s' :: 'j' :: '.' :: x.reverse) = false := rfl
  have h3 : (".ts".data.reverse).isPrefixOf ('s' :: 'j' :: '.' :: x.reverse) = false := rfl
  have h4 : (".js".data.reverse).isPrefixOf ('s' :: 'j' :: '.' :: x.reverse) = true := by
    simp [show (".js".data.reverse : Str) = ['s', 'j', '.'] from rfl, List.isPrefixOf]
  rw [stripExt, hrev, h1, h2, h3, h4]
  simp

theorem stripExt_mts (x : Str) : stripExt (x ++ ['.', 'm', 't', 's']) = x := by
  have hrev : (x ++ ['.', 'm', 't', 's']).reverse = 's' :: 't' :: 'm' :: '.' :: x.reverse := by
    simp
  have h1 : (".mts".data.reverse).isPrefixOf ('s' :: 't' :: 'm' :: '.' :: x.reverse) = true := by
    simp [show (".mts".data.reverse : Str) = ['s', 't', 'm', '.'] from rfl, List.isPrefixOf]
  rw [stripExt, hrev, h1]
  simp

theorem stripExt_mjs (x : Str) : stripExt (x ++ ['.', 'm', 'j', 's']) = x := by
  have hrev : (x ++ ['.', 'm', 'j', 's']).reverse = 's' :: 'j' :: 'm' :: '.' :: x.reverse := by
    simp
  have h1 : (".mts".data.reverse).isPrefixOf ('s' :: 'j' :: 'm' :: '.' :: x.reverse) = false := rfl
  have h2 : (".mjs".data.reverse).isPrefixOf ('s' :: 'j' :: 'm' :: '.' :: x.reverse) = true := by
    simp [show (".mjs".data.reverse : Str) = ['s', 'j', 'm', '.'] from rfl, List.isPrefixOf]
  rw [stripExt, hrev, h1, h2]
  simp

theorem stripExt_append_ext {x e : Str} (he : e ∈ extCandidates) :
    stripExt (x ++ e) = x := by
  simp only [extCandidates, List.mem_cons, List.not_mem_nil, or_false] at he
  rcases he with h | h | h | h <;> subst h
  · exact stripExt_ts x
  · exact stripExt_js x
  · exact stripExt_mts x
  · exact stripExt_mjs x

theorem normSep_eq_self {l : Str} (h : ∀ c ∈ l, c ≠ '\\') : normSep l = l := by
  induction l with
  | nil => rfl
  | cons c r ih =>
    have hc : c ≠ '\\' := h c (by simp)
    have ihr := ih fun d hd => h d (by simp [hd])
    simp only [normSep, List.map_cons, if_neg hc]
    rw [show List.map (fun c => if c = '\\' then '/' else c) r = normSep r from rfl, ihr]

theorem mem_joinWith {sep : Str} {c : Char} :
    ∀ {xs : List Str}, c ∈ joinWith sep xs → c ∈ sep ∨ ∃ x ∈ xs, c ∈ x := by
  intro xs
  induction xs with
  | nil => intro h; simp [joinWith] at h
  | cons x rest ih =>
    intro h
    cases rest with
    | nil =>
      simp only [joinWith] at h
      exact Or.inr ⟨x, by simp, h⟩
    | cons y rest2 =>
      simp only [joinWith, List.append_assoc, List.mem_append] at h
      rcases h with h | h | h
      · exact Or.inr ⟨x, by simp, h⟩
      · exact Or.inl h
      · rcases ih h with h1 | ⟨z, hz, hcz⟩
        · exact Or.inl h1
        · exact Or.inr ⟨z, by simp [hz], hcz⟩

theorem segStr_no_backslash {seg : RouteSeg} (h : segWF seg) :
    ∀ c ∈ segStr seg, c ≠ '\\' := by
  cases seg with
  | plain s => exact fun c hc => (h.2 c hc).2.1
  | param n =>
    intro c hc
    simp only [segStr, List.mem_cons, List.mem_append, List.mem_singleton,
      List.not_mem_nil, or_false] at hc
    rcases hc with h1 | h1 | h1
    · subst h1; decide
    · exact ((h.2 c h1).1).2.1
    · subst h1; decide
  | catchAll n =>
    intro c hc
    simp only [segStr, List.mem_cons, List.mem_append, List.mem_singleton,
      List.not_mem_nil, or_false] at hc
    rcases hc with h1 | h1 | h1 | h1 | h1 | h1
    · subst h1; decide
    · subst h1; decide
    · subst h1; decide
    · subst h1; decide
    · exact (h.2 c h1).2.1
    · subst h1; decide

theorem normSep_joinSegs {segs : List RouteSeg} (h : ∀ s ∈ segs, segWF s) :
    normSep (joinSegs segs) = joinSegs segs := by
  apply normSep_eq_self
  intro c hc
  rcases mem_joinWith hc with h1 | ⟨x, hx, hcx⟩
  · simp at h1; subst h1; decide
  · rcases List.mem_map.mp hx with ⟨seg, hseg, rfl⟩
    exact segStr_no_backslash (h seg hseg) c hcx

theorem replaceParam_seg_append {seg : RouteSeg} (h : segWF seg) (t : Str) :
    replaceParam (segStr seg ++ t) = paramStep seg ++ replaceParam t := by
  cases seg with
  | plain s => exact replaceParam_clean_append (fun c hc => ((h.2 c hc).2.2.1)) t
  | param n =>
    have hsh : (('[' :: (n ++ [']'])) ++ t) = '[' :: (n ++ ']' :: t) := by simp
    rw [segStr, hsh,
      replaceParam_param h.1 (fun c hc => ⟨((h.2 c hc).1).2.2.2, (h.2 c hc).2⟩)]
    rfl
  | catchAll n =>
    have hsh : (('[' :: ('.' :: '.' :: '.' :: (n ++ [']']))) ++ t)
        = '[' :: ('.' :: '.' :: '.' :: (n ++ ']' :: t)) := by simp
    rw [segStr, hsh, replaceParam_catchAll_seg (fun c hc => ((h.2 c hc)).2.2.1)]
    simp [paramStep, segStr]

theorem replaceCatchAll_seg_append {seg : RouteSeg} (h : segWF seg) (t : Str) :
    replaceCatchAll (paramStep seg ++ t) = rewriteSeg seg ++ replaceCatchAll t := by
  cases seg with
  | plain s => exact replaceCatchAll_clean_append (fun c hc => (h.2 c hc).2.2.1) t
  | param n =>
    have hcl : ∀ c ∈ ':' :: n, c ≠ '[' := by
      intro c hc
      rcases List.mem_cons.mp hc with h1 | h1
      · subst h1; decide
      · exact ((h.2 c h1).1).2.2.1
    have hres := replaceCatchAll_clean_append hcl t
    simpa [paramStep, rewriteSeg] using hres
  | catchAll n =>
    have hsh : (paramStep (.catchAll n) ++ t)
        = '[' :: ('.' :: '.' :: '.' :: (n ++ ']' :: t)) := by
      simp [paramStep, segStr]
    rw [hsh, replaceCatchAll_catchAll h.1 (fun c hc => (h.2 c hc).2.2.2)]
    rfl

theorem replaceParam_join : ∀ {segs : List RouteSeg}, (∀ s ∈ segs, segWF s) →
    replaceParam (joinSegs segs) = joinWith ['/'] (segs.map paramStep) := by
  intro segs
  induction segs with
  | nil => intro _; rfl
  | cons seg rest ih =>
    intro h
    cases rest with
    | nil =>
      have hres := replaceParam_seg_append (h seg (by simp)) []
      simp only [show replaceParam ([] : Str) = [] from rfl, List.append_nil] at hres
      simpa [joinSegs, joinWith] using hres
    | cons seg2 rest2 =>
      have hseg := h seg (by simp)
      have hJ := ih fun s hs => h s (by simp [hs])
      have hshape : joinSegs (seg :: seg2 :: rest2)
          = segStr seg ++ ('/' :: joinSegs (seg2 :: rest2)) := by
        simp [joinSegs, joinWith, List.map_cons]
      rw [hshape, replaceParam_seg_append hseg, replaceParam_cons_ne (by decide), hJ]
      simp [joinWith, List.map_cons]

theorem replaceCatchAll_join : ∀ {segs : List RouteSeg}, (∀ s ∈ segs, segWF s) →
    replaceCatchAll (joinWith ['/'] (segs.map paramStep)) = rewriteSegs segs := by
  intro segs
  induction segs with
  | nil => intro _; rfl
  | cons seg rest ih =>
    intro h
    cases rest with
    | nil =>
      have hres := replaceCatchAll_seg_append (h seg (by simp)) []
      simp only [show replaceCatchAll ([] : Str) = [] from rfl, List.append_nil] at hres
      simpa [rewriteSegs, joinWith] using hres
    | cons seg2 rest2 =>
      have hseg := h seg (by simp)
      have hJ := ih fun s hs => h s (by simp [hs])
      have hshape : joinWith ['/'] ((seg :: seg2 :: rest2).map paramStep)
          = paramStep seg ++ ('/' :: joinWith ['/'] ((seg2 :: rest2).map paramStep)) := by
        simp [joinWith, List.map_cons]
      rw [hshape, replaceCatchAll_seg_append hseg, replaceCatchAll_cons_ne (by decide), hJ]
      simp [rewriteSegs, joinWith, List.map_cons]

/-- The master lemma: on a well-formed segment path with a route extension,
`filePathToUrlPath` strips the extension, rewrites each `[name]` segment to
`:name` and each `[...name]` segment to `*` in place (so in declaration
order), and then applies the `pages`/`index`/slash finishing steps. -/
theorem urlStages {segs : List RouteSeg} {e : Str} (h : ∀ s ∈ segs, segWF s)
    (he : e ∈ extCandidates) :
    filePathToUrlPath (joinSegs segs ++ e) = urlFinish (rewriteSegs segs) := by
  rw [filePathToUrlPath, stripExt_append_ext he, normSep_joinSegs h,
    replaceParam_join h, replaceCatchAll_join h]

/-! ## Component-wise prefixes versus the string test of `getMiddlewareChain` -/

theorem splitOnChar_cons_sep (sep : Char) (r : Str) :
    splitOnChar sep (sep :: r) = [] :: splitOnChar sep r := by
  simp [splitOnChar]

theorem splitOnChar_cons_ne {sep c : Char} (h : c ≠ sep) (r : Str) :
    splitOnChar sep (c :: r)
      = (c :: (splitOnChar sep r).headI) :: (splitOnChar sep r).tail := by
  simp [splitOnChar, h]

/-- The heart of the scope-matching claims: component-wise prefix (on `sep`
split lists) is exactly "equal, or a string prefix followed by `sep`". -/
theorem splitOnChar_prefix_iff (sep : Char) : ∀ s d : Str,
    splitOnChar sep s <+: splitOnChar sep d ↔ (s = d ∨ (s ++ [sep]) <+: d) := by
  intro s
  induction s with
  | nil =>
    intro d
    cases d with
    | nil => simp [splitOnChar]
    | cons e d2 =>
      by_cases he : e = sep
      · subst he
        simp [splitOnChar_cons_sep, splitOnChar, List.cons_prefix_cons]
      · rw [splitOnChar_cons_ne he]
        simp [splitOnChar, List.cons_prefix_cons, he, Ne.symm he]
  | cons c s2 ih =>
    intro d
    cases d with
    | nil =>
      by_cases hc : c = sep
      · subst hc
        rw [splitOnChar_cons_sep]
        simp [splitOnChar, List.cons_prefix_cons, List.prefix_nil, splitOnChar_ne_nil]
      · rw [splitOnChar_cons_ne hc]
        simp [splitOnChar, List.cons_prefix_cons, hc]
    | cons e d2 =>
      by_cases hc : c = sep <;> by_cases he : e = sep
      · subst hc; subst he
        rw [splitOnChar_cons_sep, splitOnChar_cons_sep]
        simp only [List.cons_prefix_cons, true_and, List.cons_append]
        rw [ih d2]
        simp [List.cons_prefix_cons]
      · subst hc
        rw [splitOnChar_cons_sep, splitOnChar_cons_ne he]
        simp [List.cons_prefix_cons, he, Ne.symm he]
      · subst he
        rw [splitOnChar_cons_ne hc, splitOnChar_cons_sep]
        simp [List.cons_prefix_cons, hc]
      · by_cases hce : c = e
        · subst hce
          obtain ⟨hs, ts, hss⟩ := List.exists_cons_of_ne_nil (splitOnChar_ne_nil sep s2)
          obtain ⟨hd, td, hdd⟩ := List.exists_cons_of_ne_nil (splitOnChar_ne_nil sep d2)
          rw [splitOnChar_cons_ne hc, splitOnChar_cons_ne he, hss, hdd]
          have hiff := ih d2
          rw [hss, hdd] at hiff
          simp only [List.headI, List.tail_cons, List.cons_prefix_cons, List.cons_append,
            List.cons.injEq, true_and, eq_self_iff_true] at hiff ⊢
          exact hiff
        · rw [splitOnChar_cons_ne hc, splitOnChar_cons_ne he]
          simp [List.cons_prefix_cons, hce]

/-- The claim-side scope predicate: the root scope matches every route;
otherwise the scope's `/`-components must be a prefix of the route
directory's `/`-components. -/
def scopeComponentPrefix (scope routeDir : Str) : Bool :=
  scope == [] || (splitOnChar '/' scope).isPrefixOf (splitOnChar '/' routeDir)

/-- The string test of `getMiddlewareChain` is exactly component-wise
prefixing. -/
theorem matchesScope_eq_spec (routeDir scope : Str) :
    matchesScope routeDir scope = scopeComponentPrefix scope routeDir := by
  rw [Bool.eq_iff_iff]
  simp only [matchesScope, scopeComponentPrefix, Bool.or_eq_true, beq_iff_eq,
    List.isPrefixOf_iff_prefix]
  rw [splitOnChar_prefix_iff]
  constructor
  · rintro ((h | h) | h)
    · exact Or.inl h
    · exact Or.inr (Or.inl h.symm)
    · exact Or.inr (Or.inr h)
  · rintro (h | h | h)
    · exact Or.inl (Or.inl h)
    · exact Or.inl (Or.inr h.symm)
    · exact Or.inr h

theorem chainLoop_eq_filter {H : Type} (routeDir : Str) :
    ∀ entries : List (MiddlewareEntry H),
      chainLoop routeDir entries
        = ((entries.filter fun e => scopeComponentPrefix e.scope routeDir).map
            MiddlewareEntry.handlers).flatten := by
  intro entries
  induction entries with
  | nil => rfl
  | cons e rest ih =>
    rw [chainLoop]
    by_cases hm : matchesScope routeDir e.scope = true
    · rw [if_pos hm, ih,
        List.filter_cons_of_pos (by rw [← matchesScope_eq_spec]; exact hm)]
      simp
    · rw [if_neg hm, ih,
        List.filter_cons_of_neg (by rw [← matchesScope_eq_spec]; exact hm)]

/-- C1: for every route file path and every middleware entry list sorted
root-first (ascending depth), `getMiddlewareChain` returns exactly the
concatenation of the handler lists of the entries whose scope is a
path-component-wise prefix of the route file's directory (the root scope
`''` matching every route), and that concatenation is taken in
ascending-depth order, outermost first. -/
theorem getMiddlewareChain_component_prefix {H : Type} (p : Str)
    (entries : List (MiddlewareEntry H))
    (hsorted : List.Pairwise (fun a b => entryDepth a ≤ entryDepth b) entries) :
    getMiddlewareChain p entries
      = ((entries.filter fun e => scopeComponentPrefix e.scope (dirname p)).map
          MiddlewareEntry.handlers).flatten
    ∧ List.Pairwise (fun a b => entryDepth a ≤ entryDepth b)
        (entries.filter fun e => scopeComponentPrefix e.scope (dirname p)) :=
  ⟨chainLoop_eq_filter (dirname p) entries,
   List.Pairwise.sublist (List.filter_sublist _) hsorted⟩

/-- A concrete sorted middleware configuration for the witnesses. -/
def sampleEntries : List (MiddlewareEntry Nat) :=
  [⟨[], "/".data, [0]⟩, ⟨"api".data, "/api".data, [1]⟩, ⟨"pages".data, "/".data, [2]⟩]

theorem getMiddlewareChain_component_prefix_witness :
    getMiddlewareChain "api/users/list.ts".data sampleEntries
      = ((sampleEntries.filter fun e => scopeComponentPrefix e.scope
          (dirname "api/users/list.ts".data)).map MiddlewareEntry.handlers).flatten
    ∧ List.Pairwise (fun a b => entryDepth a ≤ entryDepth b)
        (sampleEntries.filter fun e => scopeComponentPrefix e.scope
          (dirname "api/users/list.ts".data)) :=
  getMiddlewareChain_component_prefix _ sampleEntries (by decide)

/-- C4: a non-root scope's handlers are contributed to a route's chain
exactly when the route's directory equals the scope or extends it by whole
path segments; sharing the scope as a mere string prefix (e.g. directory
`api-x` against scope `api`) never matches, since `api-x` is neither `api`
nor of the form `api/…`. -/
theorem scope_segment_matching {H : Type} (p : Str) (e : MiddlewareEntry H)
    (es : List (MiddlewareEntry H)) (hscope : e.scope ≠ [])
    (hhandlers : e.handlers ≠ []) :
    (getMiddlewareChain p (e :: es) = e.handlers ++ getMiddlewareChain p es
      ↔ (dirname p = e.scope ∨ ∃ r, dirname p = e.scope ++ '/' :: r)) := by
  show chainLoop (dirname p) (e :: es) = e.handlers ++ chainLoop (dirname p) es ↔ _
  rw [chainLoop]
  by_cases hm : matchesScope (dirname p) e.scope = true
  · rw [if_pos hm]
    simp only [matchesScope, Bool.or_eq_true, beq_iff_eq,
      List.isPrefixOf_iff_prefix] at hm
    apply iff_of_true rfl
    rcases hm with (h | h) | h
    · exact absurd h hscope
    · exact Or.inl h
    · obtain ⟨t, ht⟩ := h
      refine Or.inr ⟨t, ?_⟩
      rw [← ht]
      simp
  · rw [if_neg hm]
    apply iff_of_false
    · intro h
      have hlen := congrArg List.length h
      rw [List.length_append] at hlen
      have hzero : e.handlers.length = 0 := by omega
      exact hhandlers (List.length_eq_zero.mp hzero)
    · intro h
      apply hm
      rcases h with h | ⟨r, hr⟩
      · simp [matchesScope, h]
      · have hpre : (e.scope ++ ['/']) <+: dirname p := by
          rw [hr]
          exact ⟨r, by simp⟩
        simp [matchesScope, List.isPrefixOf_iff_prefix, hpre]

theorem scope_segment_matching_witness :
    getMiddlewareChain "api/users/list.ts".data
        [(⟨"api".data, "/api".data, [5]⟩ : MiddlewareEntry Nat)]
      = [5] ++ getMiddlewareChain "api/users/list.ts".data [] :=
  (scope_segment_matching _ _ _ (by decide) (by decide)).mpr
    (Or.inr ⟨"users".data, by decide⟩)

/-! ## Determinism and ordering of the scanners (C3, C8, C9, C10) -/

/-- C3 (amended): `scanMiddleware` always returns its entries sorted
root-to-leaf by directory depth, and the output is a permutation of the
entries collected from the discovered files.  Ties between equal-depth
scopes keep the enumeration order (the sort is stable), so the output is
not invariant under arbitrary permutations of the discovered files. -/
theorem scanMiddleware_sorted_perm {H : Type} (files : List Str)
    (imp : Str → Option (MWDefault H)) :
    List.Sorted depthLe (scanMiddleware files imp)
    ∧ (scanMiddleware files imp).Perm
        (files.filterMap fun f => (imp f).bind (mwEntryFor f)) :=
  ⟨List.sorted_insertionSort depthLe _, List.perm_insertionSort depthLe _⟩

/-- The import oracle of the C3 counterexample: two equal-depth scopes. -/
def mwImpC : Str → Option (MWDefault Nat) := fun f =>
  if f = "api/_middleware.ts".data then some (.fn 0)
  else if f = "pages/_middleware.ts".data then some (.fn 1)
  else none

theorem scanMiddleware_sorted_perm_witness :
    List.Sorted depthLe (scanMiddleware ["api/_middleware.ts".data] mwImpC)
    ∧ (scanMiddleware ["api/_middleware.ts".data] mwImpC).Perm
        (["api/_middleware.ts".data].filterMap fun f =>
          (mwImpC f).bind (mwEntryFor f)) :=
  scanMiddleware_sorted_perm _ mwImpC

/-- C3 fails as stated: the two enumeration orders of the same two
discovered files are permutations of each other, yet `scanMiddleware`
returns differently ordered entry lists (both scopes have depth 1, and the
comparator `depthA - depthB` has no tie-break). -/
theorem scanMiddleware_order_counterexample :
    (["pages/_middleware.ts".data, "api/_middleware.ts".data] : List Str).Perm
        ["api/_middleware.ts".data, "pages/_middleware.ts".data]
    ∧ scanMiddleware ["api/_middleware.ts".data, "pages/_middleware.ts".data] mwImpC
        ≠ scanMiddleware ["pages/_middleware.ts".data, "api/_middleware.ts".data] mwImpC := by
  constructor
  · decide
  · decide

/-- C8: a route file whose import throws is skipped with a warning and every
other file still produces exactly its own routes; a middleware file whose
default export yields zero function handlers contributes no entry while the
rest are still processed.  Both scanners are total functions of their
inputs — there is no aborting path. -/
theorem scan_error_skipping {H : Type} (xs ys : List Str) (b : Str)
    (imp : Str → Option (RouteModule H)) (hb : imp b = none)
    (zs ws : List Str) (z : Str) (impMW : Str → Option (MWDefault H))
    (d : MWDefault H) (hz : impMW z = some d) (hzero : mwHandlers d = []) :
    scanRoutes (xs ++ b :: ys) imp = scanRoutes (xs ++ ys) imp
    ∧ scanMiddleware (zs ++ z :: ws) impMW = scanMiddleware (zs ++ ws) impMW := by
  constructor
  · rw [scanRoutes, scanRoutes, List.filterMap_append, List.filterMap_append]
    congr 1
    rw [List.filterMap_cons]
    simp [hb]
  · rw [scanMiddleware, scanMiddleware]
    congr 1
    rw [List.filterMap_append, List.filterMap_append]
    congr 1
    rw [List.filterMap_cons]
    have hnone : mwEntryFor (H := H) z d = none := by
      simp [mwEntryFor, hzero]
    simp [hz, hnone]

/-- A route module whose only useful export is a default GET function. -/
def defaultOnlyModule : RouteModule Nat :=
  ⟨fun _ => .undef, fun _ => .undef, .fn 7, .undef⟩

/-- Import oracle with one file whose import throws. -/
def badImp : Str → Option (RouteModule Nat) := fun f =>
  if f = "bad.ts".data then none else some defaultOnlyModule

/-- Middleware import oracle whose only module exports an array with no
functions in it. -/
def zeroMWImp : Str → Option (MWDefault Nat) := fun _ => some (.arr [none])

theorem scan_error_skipping_witness :
    scanRoutes ([] ++ "bad.ts".data :: ["api/a.ts".data]) badImp
        = scanRoutes ([] ++ ["api/a.ts".data]) badImp
    ∧ scanMiddleware ([] ++ "z/_middleware.ts".data :: []) zeroMWImp
        = scanMiddleware ([] ++ []) zeroMWImp :=
  scan_error_skipping [] ["api/a.ts".data] "bad.ts".data badImp rfl
    [] [] "z/_middleware.ts".data zeroMWImp (.arr [none]) rfl rfl

/-- Any route entry `routeFor` produces carries the file it came from and
the URL pattern computed from that file. -/
theorem routeFor_urlPath {H : Type} {f : Str} {mod : RouteModule H}
    {r : RouteEntry H} (h : routeFor f mod = some r) :
    r.urlPath = filePathToUrlPath f ∧ r.filePath = f := by
  simp only [routeFor] at h
  split at h
  · split at h
    · exact absurd h (by simp)
    · exact ⟨by rw [← Option.some.inj h], by rw [← Option.some.inj h]⟩
  · split at h
    · exact ⟨by rw [← Option.some.inj h], by rw [← Option.some.inj h]⟩
    · exact ⟨by rw [← Option.some.inj h], by rw [← Option.some.inj h]⟩
    · split at h
      · exact absurd h (by simp)
      · exact ⟨by rw [← Option.some.inj h], by rw [← Option.some.inj h]⟩

/-- C9: `filePathToUrlPath` is a deterministic function of the file path
(equal inputs yield equal URL patterns — the embedding is a pure function),
and every route entry `scanRoutes` registers carries exactly the single URL
pattern computed from its own file path. -/
theorem filePathToUrlPath_deterministic :
    (∀ p q : Str, p = q → filePathToUrlPath p = filePathToUrlPath q)
    ∧ ∀ (H : Type) (files : List Str) (imp : Str → Option (RouteModule H))
        (r : RouteEntry H), r ∈ scanRoutes files imp
          → r.urlPath = filePathToUrlPath r.filePath := by
  constructor
  · intro p q h
    rw [h]
  · intro H files imp r hmem
    rw [scanRoutes] at hmem
    obtain ⟨f, _, hbind⟩ := List.mem_filterMap.mp hmem
    cases himp : imp f with
    | none => rw [himp] at hbind; simp at hbind
    | some mod =>
      rw [himp] at hbind
      simp only [Option.some_bind] at hbind
      obtain ⟨hurl, hfile⟩ := routeFor_urlPath hbind
      rw [hurl, hfile]

theorem filePathToUrlPath_deterministic_witness :
    filePathToUrlPath "pages/about.ts".data = filePathToUrlPath "pages/about.ts".data :=
  filePathToUrlPath_deterministic.1 _ _ rfl

theorem lookup_filterMap_none {H : Type} (mod : RouteModule H) :
    ∀ ms : List Method, Method.GET ∉ ms →
      ((ms.filterMap fun m => (resolveMethod mod m).map fun h => (m, h)).lookup
        Method.GET) = none := by
  intro ms
  induction ms with
  | nil => intro _; rfl
  | cons m rest ih =>
    intro hms
    have hm : (Method.GET == m) = false := by
      simp only [beq_eq_false_iff_ne, ne_eq]
      intro he
      exact hms (by simp [← he])
    rw [List.filterMap_cons]
    cases hres : resolveMethod mod m with
    | none => exact ih fun hmem => hms (by simp [hmem])
    | some h =>
      rw [Option.map_some', List.lookup_cons, hm]
      exact ih fun hmem => hms (by simp [hmem])

theorem buildMethods_lookup_GET {H : Type} (mod : RouteModule H) :
    (buildMethods mod).lookup Method.GET = resolveMethod mod Method.GET := by
  rw [buildMethods, HTTP_METHODS, List.filterMap_cons]
  cases hres : resolveMethod mod Method.GET with
  | none => exact lookup_filterMap_none mod _ (by decide)
  | some g =>
    rw [Option.map_some', List.lookup_cons]
    simp

theorem lookup_append_of_none {α β : Type} [BEq α] {k : α} {l1 l2 : List (α × β)}
    (h : l1.lookup k = none) : (l1 ++ l2).lookup k = l2.lookup k := by
  induction l1 with
  | nil => rfl
  | cons p rest ih =>
    obtain ⟨a, b⟩ := p
    rw [List.cons_append, List.lookup]
    rw [List.lookup] at h
    cases hk : (k == a) with
    | true => rw [hk] at h; simp at h
    | false =>
      rw [hk] at h
      simp only at h ⊢
      exact ih h

/-- C10: for an `api/` route module whose default export is a function,
`scanRoutes` registers the default export as the GET handler exactly when
no named GET handler is exported; a named GET export (uppercase or
lowercase) takes precedence and the default export is ignored. -/
theorem api_default_get_fallback {H : Type} (file : Str) (mod : RouteModule H)
    (dflt : H) (hapi : (("api/".data : Str)).isPrefixOf file = true)
    (hd : mod.default = JsVal.fn dflt) :
    (resolveMethod mod Method.GET = none →
      ∃ r : RouteEntry H, scanRoutes [file] (fun _ => some mod) = [r]
        ∧ r.methods.lookup Method.GET = some dflt)
    ∧ (∀ g, resolveMethod mod Method.GET = some g →
      ∃ r : RouteEntry H, scanRoutes [file] (fun _ => some mod) = [r]
        ∧ r.methods.lookup Method.GET = some g) := by
  have hasfn : asFn mod.default = some dflt := by rw [hd]; rfl
  constructor
  · intro hres
    have hlook : (buildMethods mod).lookup Method.GET = none := by
      rw [buildMethods_lookup_GET, hres]
    have hmeth : apiMethods mod = buildMethods mod ++ [(Method.GET, dflt)] := by
      rw [apiMethods, hasfn]
      simp only [hlook, Option.isNone_none, if_pos]
    have hne : (apiMethods mod).isEmpty = false := by
      rw [hmeth]
      simp
    refine ⟨{ filePath := file, urlPath := filePathToUrlPath file, type := .api,
              methods := apiMethods mod }, ?_, ?_⟩
    · rw [scanRoutes]
      simp only [List.filterMap_cons, List.filterMap_nil, Option.some_bind]
      rw [routeFor]
      simp only [hapi, if_pos, hne, Bool.false_eq_true, if_neg]
      rfl
    · rw [hmeth, lookup_append_of_none hlook]
      rw [List.lookup]
      simp
  · intro g hres
    have hlook : (buildMethods mod).lookup Method.GET = some g := by
      rw [buildMethods_lookup_GET, hres]
    have hmeth : apiMethods mod = buildMethods mod := by
      rw [apiMethods, hasfn]
      simp [hlook]
    have hne : (apiMethods mod).isEmpty = false := by
      rw [hmeth]
      cases hb : buildMethods mod with
      | nil => rw [hb] at hlook; simp [List.lookup] at hlook
      | cons a l => simp
    refine ⟨{ filePath := file, urlPath := filePathToUrlPath file, type := .api,
              methods := apiMethods mod }, ?_, ?_⟩
    · rw [scanRoutes]
      simp only [List.filterMap_cons, List.filterMap_nil, Option.some_bind]
      rw [routeFor]
      simp only [hapi, if_pos, hne, Bool.false_eq_true, if_neg]
      rfl
    · rw [hmeth, hlook]

theorem api_default_get_fallback_witness :
    ∃ r : RouteEntry Nat,
      scanRoutes ["api/a.ts".data] (fun _ => some defaultOnlyModule) = [r]
        ∧ r.methods.lookup Method.GET = some 7 :=
  (api_default_get_fallback "api/a.ts".data defaultOnlyModule 7
    (by decide) rfl).1 rfl

/-! ## The OAuth callback guard (C7) -/

/-- C7 (amended): the provider calls run exactly when the request has a
non-empty `code` parameter, no non-empty `error` parameter, and the state
cookie check passes — the first `;`-cookie starting `moria_oauth_state=`
must have a non-empty first `=`-chunk after the name that equals the
`state` parameter.  In every other case the handler redirects to the
failure URL having made no provider call, and the calls that do run are
exchangeCode, then fetchProfile, then signIn, each gated on the previous
step succeeding. -/
theorem oauthCallback_guard (q : CallbackQuery) (ck fail succ : Str)
    (ex pf : Str → Option Str) :
    ((oauthCallback q ck fail succ ex pf).calls ≠ [] ↔
      (truthy q.error = false ∧ truthy q.code = true ∧ stateOk q ck = true))
    ∧ ((truthy q.error = true ∨ truthy q.code = false ∨ stateOk q ck = false) →
        oauthCallback q ck fail succ ex pf = ⟨[], fail⟩)
    ∧ ((oauthCallback q ck fail succ ex pf).calls = []
      ∨ (oauthCallback q ck fail succ ex pf).calls = [.exchangeCode]
      ∨ (oauthCallback q ck fail succ ex pf).calls = [.exchangeCode, .fetchProfile]
      ∨ (oauthCallback q ck fail succ ex pf).calls
          = [.exchangeCode, .fetchProfile, .signIn]) := by
  by_cases hpass : truthy q.error = false ∧ truthy q.code = true ∧ stateOk q ck = true
  · obtain ⟨herr, hcode, hok⟩ := hpass
    have hstep : oauthCallback q ck fail succ ex pf =
        match ex (q.code.getD []) with
        | none => ⟨[.exchangeCode], fail⟩
        | some tok =>
          match pf tok with
          | none => ⟨[.exchangeCode, .fetchProfile], fail⟩
          | some _ => ⟨[.exchangeCode, .fetchProfile, .signIn], succ⟩ := by
      rw [oauthCallback, if_neg (by simp [herr, hcode]), if_neg (by simp [hok])]
    have hnocontra : ¬(truthy q.error = true ∨ truthy q.code = false
        ∨ stateOk q ck = false) := by
      rintro (h | h | h)
      · rw [herr] at h; exact absurd h (by simp)
      · rw [hcode] at h; exact absurd h (by simp)
      · rw [hok] at h; exact absurd h (by simp)
    cases hex : ex (q.code.getD []) with
    | none =>
      have hout : oauthCallback q ck fail succ ex pf
          = ⟨[.exchangeCode], fail⟩ := by
        rw [hstep, hex]
      rw [hout]
      exact ⟨by simp [herr, hcode, hok], fun hc => absurd hc hnocontra,
        Or.inr (Or.inl rfl)⟩
    | some tok =>
      cases hpf : pf tok with
      | none =>
        have hout : oauthCallback q ck fail succ ex pf
            = ⟨[.exchangeCode, .fetchProfile], fail⟩ := by
          rw [hstep, hex]
          simp [hpf]
        rw [hout]
        exact ⟨by simp [herr, hcode, hok], fun hc => absurd hc hnocontra,
          Or.inr (Or.inr (Or.inl rfl))⟩
      | some u =>
        have hout : oauthCallback q ck fail succ ex pf
            = ⟨[.exchangeCode, .fetchProfile, .signIn], succ⟩ := by
          rw [hstep, hex]
          simp [hpf]
        rw [hout]
        exact ⟨by simp [herr, hcode, hok], fun hc => absurd hc hnocontra,
          Or.inr (Or.inr (Or.inr rfl))⟩
  · have hguard : oauthCallback q ck fail succ ex pf = ⟨[], fail⟩ := by
      rw [oauthCallback]
      by_cases h1 : (truthy q.error || !truthy q.code) = true
      · rw [if_pos h1]
      · rw [if_neg h1]
        have hok : stateOk q ck = false := by
          simp only [Bool.or_eq_true, Bool.not_eq_true', not_or,
            Bool.not_eq_true] at h1
          obtain ⟨he, hc⟩ := h1
          cases hst : stateOk q ck with
          | false => rfl
          | true => exact absurd ⟨by simpa using he, by simpa using hc, hst⟩ hpass
        rw [if_pos (by simp [hok])]
    rw [hguard]
    refine ⟨?_, fun _ => rfl, Or.inl rfl⟩
    constructor
    · intro h
      exact absurd rfl h
    · intro hc
      exact absurd hc hpass

theorem oauthCallback_guard_witness :
    (oauthCallback ⟨some "x".data, some "abc".data, none⟩
        "moria_oauth_state=abc".data "/f".data "/s".data
        (fun _ => some "t".data) (fun _ => some "u".data)).calls ≠ [] :=
  (oauthCallback_guard _ _ _ _ _ _).1.mpr (by decide)

/-- C7 fails as stated: with cookie `moria_oauth_state=abc=def` (value
`abc=def`) and state parameter `abc`, the cookie value is not equal to the
state parameter, yet the handler performs the exchange / profile / signIn
calls, because `savedState = stateCookie.split('=')[1]` reads only the
chunk between the first and second `=`. -/
theorem oauthCallback_state_counterexample :
    oauthStateCookieValue "moria_oauth_state=abc=def".data = some "abc=def".data
    ∧ (some "abc".data : Option Str) ≠ some "abc=def".data
    ∧ (oauthCallback ⟨some "x".data, some "abc".data, none⟩
        "moria_oauth_state=abc=def".data "/f".data "/s".data
        (fun _ => some "t".data) (fun _ => some "u".data)).calls
        = [.exchangeCode, .fetchProfile, .signIn] :=
  ⟨by decide, by decide, by decide⟩

/-! ## Index files and the `pages` prefix (C2, C5, C6) -/

/-- C5: on a well-formed segment path, `filePathToUrlPath` first strips the
`.ts/.js/.mts/.mjs` extension, then rewrites each `[name]` segment to
`:name` and each `[...name]` segment to `*` in place — so named parameters
appear in declaration order — before the final `pages`/`index`/slash
adjustments. -/
theorem filePathToUrlPath_segment_rewrites {segs : List RouteSeg} {e : Str}
    (h : ∀ s ∈ segs, segWF s) (he : e ∈ extCandidates) :
    filePathToUrlPath (joinSegs segs ++ e) = urlFinish (rewriteSegs segs) :=
  urlStages h he

theorem filePathToUrlPath_segment_rewrites_witness :
    filePathToUrlPath (joinSegs [.plain "api".data, .param "id".data,
        .catchAll "rest".data] ++ ".ts".data)
      = urlFinish (rewriteSegs [.plain "api".data, .param "id".data,
        .catchAll "rest".data]) :=
  filePathToUrlPath_segment_rewrites (by decide) (by decide)

theorem indexStrip_append (w : Str) : indexStrip (w ++ '/' :: indexStr) = w := by
  rw [indexStrip]
  have hrev : (w ++ '/' :: indexStr).reverse
      = ('/' :: indexStr).reverse ++ w.reverse := by simp
  rw [hrev, if_pos (List.isPrefixOf_iff_prefix.mpr (List.prefix_append _ _))]
  rw [show (6 : Nat) = ('/' :: indexStr).reverse.length from rfl,
    List.drop_left, List.reverse_reverse]

theorem joinWith_append_last (sep y : Str) :
    ∀ xs : List Str, xs ≠ [] →
      joinWith sep (xs ++ [y]) = joinWith sep xs ++ sep ++ y := by
  intro xs
  induction xs with
  | nil => intro h; exact absurd rfl h
  | cons x rest ih =>
    intro _
    cases rest with
    | nil => simp [joinWith]
    | cons x2 rest2 =>
      have hstep : joinWith sep ((x2 :: rest2) ++ [y])
          = joinWith sep (x2 :: rest2) ++ sep ++ y := ih (by simp)
      have hcons : joinWith sep ((x :: x2 :: rest2) ++ [y])
          = x ++ sep ++ joinWith sep ((x2 :: rest2) ++ [y]) := rfl
      rw [hcons, hstep,
        show joinWith sep (x :: x2 :: rest2)
          = x ++ sep ++ joinWith sep (x2 :: rest2) from rfl]
      simp [List.append_assoc]

theorem append_slashfree_inj :
    ∀ {a : Str}, (∀ c ∈ a, c ≠ '/') → ∀ {b : Str}, (∀ c ∈ b, c ≠ '/') →
      ∀ {x y : Str}, a ++ '/' :: x = b ++ '/' :: y → a = b ∧ x = y := by
  intro a
  induction a with
  | nil =>
    intro _ b hb x y h
    cases b with
    | nil => simpa using h
    | cons c b2 =>
      rw [List.nil_append, List.cons_append] at h
      injection h with h1 _
      exact absurd h1.symm (hb c (by simp))
  | cons c a2 ih =>
    intro ha b hb x y h
    cases b with
    | nil =>
      rw [List.cons_append, List.nil_append] at h
      injection h with h1 _
      exact absurd h1 (ha c (by simp))
    | cons d b2 =>
      rw [List.cons_append, List.cons_append] at h
      injection h with h1 h2
      obtain ⟨hab, hxy⟩ := ih (fun e he => ha e (by simp [he]))
        (fun e he => hb e (by simp [he])) h2
      exact ⟨by rw [h1, hab], hxy⟩

theorem pagesPrefix_append_iff {r1 T : Str} (h1 : ∀ c ∈ r1, c ≠ '/') :
    ((pagesStr ++ ['/']).isPrefixOf (r1 ++ '/' :: T) = true) ↔ r1 = pagesStr := by
  rw [List.isPrefixOf_iff_prefix]
  constructor
  · rintro ⟨t, ht⟩
    rw [List.append_assoc, List.singleton_append] at ht
    exact (append_slashfree_inj (by decide) h1 ht).1.symm
  · rintro rfl
    exact ⟨T, by simp⟩

theorem rewriteSeg_ne_nil {seg : RouteSeg} (h : segWF seg) : rewriteSeg seg ≠ [] := by
  cases seg with
  | plain s => exact h.1
  | param n => simp [rewriteSeg]
  | catchAll n => simp [rewriteSeg]

theorem rewriteSeg_slashfree {seg : RouteSeg} (h : segWF seg) :
    ∀ c ∈ rewriteSeg seg, c ≠ '/' := by
  cases seg with
  | plain s => exact fun c hc => (h.2 c hc).1
  | param n =>
    intro c hc
    rcases List.mem_cons.mp hc with h1 | h1
    · subst h1; decide
    · exact ((h.2 c h1).1).1
  | catchAll n =>
    intro c hc
    simp only [rewriteSeg, List.mem_singleton] at hc
    subst hc; decide

theorem rewriteSeg_eq_pages_iff {seg : RouteSeg} :
    rewriteSeg seg = pagesStr ↔ seg = .plain pagesStr := by
  cases seg with
  | plain s => simp [rewriteSeg]
  | param n =>
    apply iff_of_false
    · intro hcontra
      rw [show pagesStr = 'p' :: "ages".data from rfl] at hcontra
      rw [rewriteSeg] at hcontra
      injection hcontra with h1 _
      exact absurd h1 (by decide)
    · intro hcontra
      exact RouteSeg.noConfusion hcontra
  | catchAll n =>
    apply iff_of_false
    · intro hcontra
      rw [show pagesStr = 'p' :: "ages".data from rfl] at hcontra
      rw [rewriteSeg] at hcontra
      injection hcontra with h1 _
      exact absurd h1 (by decide)
    · intro hcontra
      exact RouteSeg.noConfusion hcontra

theorem rewriteSegs_cons_head {s2 : RouteSeg} (rest2 : List RouteSeg) (h : segWF s2) :
    ∃ c t, rewriteSegs (s2 :: rest2) = c :: t ∧ c ≠ '/' := by
  obtain ⟨c0, t0, h0⟩ := List.exists_cons_of_ne_nil (rewriteSeg_ne_nil h)
  have hc0 : c0 ≠ '/' := rewriteSeg_slashfree h c0 (by rw [h0]; simp)
  cases rest2 with
  | nil => exact ⟨c0, t0, by simp [rewriteSegs, joinWith, h0], hc0⟩
  | cons s3 rest3 =>
    refine ⟨c0, t0 ++ '/' :: rewriteSegs (s3 :: rest3), ?_, hc0⟩
    rw [rewriteSegs, List.map_cons, List.map_cons, joinWith, h0]
    simp [rewriteSegs, List.map_cons, List.append_assoc]

/-- Drop a leading literal `pages` segment (the parent-directory URL view
of the framework's `pages/` mount-at-root convention). -/
def stripPagesSeg : List RouteSeg → List RouteSeg
  | .plain p :: rest => if p = pagesStr then rest else .plain p :: rest
  | segs => segs

/-- Modelled from the claim's words: the URL path of a route file's parent
directory — its segments bracket-rewritten and slash-joined, with a leading
`pages` segment removed (the framework mounts `pages/` at the URL root) and
a leading slash (the root directory's URL being `/`). -/
def parentUrl (segs : List RouteSeg) : Str :=
  let s := joinWith ['/'] ((stripPagesSeg segs).map rewriteSeg)
  if s = [] then ['/'] else leadingSlash s

theorem stripPagesSeg_eq_self {s1 : RouteSeg} (rest : List RouteSeg)
    (hp : s1 ≠ .plain pagesStr) : stripPagesSeg (s1 :: rest) = s1 :: rest := by
  cases s1 with
  | plain p =>
    have hne : p ≠ pagesStr := fun hcontra => hp (by rw [hcontra])
    simp [stripPagesSeg, hne]
  | param n => rfl
  | catchAll n => rfl

theorem pagesStrip_cons (X : Str) :
    pagesStrip (pagesStr ++ '/' :: X) = '/' :: X := by
  rw [pagesStrip, if_pos (List.isPrefixOf_iff_prefix.mpr ⟨X, by simp⟩)]
  rw [show (5 : Nat) = pagesStr.length from rfl, List.drop_left]

/-- `leadingSlash` is the identity on strings already starting with `/`. -/
theorem leadingSlash_cons_slash (X : Str) : leadingSlash ('/' :: X) = '/' :: X := by
  rw [leadingSlash, if_pos (show ('/' :: X).head? = some '/' from rfl)]

theorem leadingSlash_ne_slash {c : Char} (hc : c ≠ '/') (X : Str) :
    leadingSlash (c :: X) = '/' :: c :: X := by
  rw [leadingSlash, if_neg (by simp [hc])]

theorem rootCase_cons (c : Char) (X : Str) : rootCase (c :: X) = c :: X := by
  rw [rootCase, if_neg (by simp)]

/-- C2 (amended): an `index` route file inside at least one directory level
maps to its parent directory's URL path. -/
theorem index_maps_to_parent {segs : List RouteSeg} {e : Str}
    (h : ∀ s ∈ segs, segWF s) (hne : segs ≠ []) (he : e ∈ extCandidates) :
    filePathToUrlPath (joinSegs (segs ++ [.plain indexStr]) ++ e) = parentUrl segs := by
  have hwf2 : ∀ s ∈ segs ++ [RouteSeg.plain indexStr], segWF s := by
    intro s hs
    rcases List.mem_append.mp hs with h1 | h1
    · exact h s h1
    · simp only [List.mem_singleton] at h1
      subst h1
      exact ⟨by decide, by decide⟩
  rw [urlStages hwf2 he]
  have hjoin : rewriteSegs (segs ++ [RouteSeg.plain indexStr])
      = rewriteSegs segs ++ '/' :: indexStr := by
    rw [rewriteSegs, List.map_append, List.map_cons, List.map_nil,
      joinWith_append_last _ _ _ (by simp [hne])]
    rw [rewriteSegs, rewriteSeg]
    simp [List.append_assoc]
  rw [hjoin]
  obtain ⟨s1, rest, rfl⟩ := List.exists_cons_of_ne_nil hne
  by_cases hp : s1 = RouteSeg.plain pagesStr
  · subst hp
    cases rest with
    | nil =>
      have hX : rewriteSegs [RouteSeg.plain pagesStr] = pagesStr := rfl
      rw [hX, urlFinish, pagesStrip_cons]
      have his : indexStrip ('/' :: indexStr) = [] := by
        have hw := indexStrip_append []
        simpa using hw
      rw [his]
      rfl
    | cons s2 rest2 =>
      have hX : rewriteSegs (RouteSeg.plain pagesStr :: s2 :: rest2)
          = pagesStr ++ '/' :: rewriteSegs (s2 :: rest2) := by
        rw [rewriteSegs, List.map_cons, List.map_cons, joinWith, rewriteSeg]
        simp [rewriteSegs, List.map_cons, List.append_assoc]
      rw [hX,
        show (pagesStr ++ '/' :: rewriteSegs (s2 :: rest2)) ++ '/' :: indexStr
          = pagesStr ++ '/' :: (rewriteSegs (s2 :: rest2) ++ '/' :: indexStr)
          from by simp,
        urlFinish, pagesStrip_cons,
        show ('/' :: (rewriteSegs (s2 :: rest2) ++ '/' :: indexStr))
          = ('/' :: rewriteSegs (s2 :: rest2)) ++ '/' :: indexStr from by simp,
        indexStrip_append, leadingSlash_cons_slash, rootCase_cons]
      obtain ⟨c0, t0, hY, hc0⟩ := rewriteSegs_cons_head rest2 (h s2 (by simp))
      rw [parentUrl, show stripPagesSeg (RouteSeg.plain pagesStr :: s2 :: rest2)
        = s2 :: rest2 from by simp [stripPagesSeg]]
      rw [show joinWith ['/'] (List.map rewriteSeg (s2 :: rest2))
        = rewriteSegs (s2 :: rest2) from rfl]
      rw [hY, if_neg (by simp), leadingSlash_ne_slash hc0]
  · have hr1ne : rewriteSeg s1 ≠ pagesStr := fun hcontra =>
      hp (rewriteSeg_eq_pages_iff.mp hcontra)
    obtain ⟨c0, t0, hY, hc0⟩ := rewriteSegs_cons_head rest (h s1 (by simp))
    have hslash1 : ∀ c ∈ rewriteSeg s1, c ≠ '/' := rewriteSeg_slashfree (h s1 (by simp))
    have hps : pagesStrip (rewriteSegs (s1 :: rest) ++ '/' :: indexStr)
        = rewriteSegs (s1 :: rest) ++ '/' :: indexStr := by
      rw [pagesStrip]
      cases rest with
      | nil =>
        rw [show rewriteSegs [s1] = rewriteSeg s1 from rfl]
        exact if_neg fun hcond => hr1ne ((pagesPrefix_append_iff hslash1).mp hcond)
      | cons s3 rest3 =>
        have hform : rewriteSegs (s1 :: s3 :: rest3)
            = rewriteSeg s1 ++ '/' :: rewriteSegs (s3 :: rest3) := by
          rw [rewriteSegs, List.map_cons, List.map_cons, joinWith]
          simp [rewriteSegs, List.map_cons, List.append_assoc]
        rw [hform, show (rewriteSeg s1 ++ '/' :: rewriteSegs (s3 :: rest3)) ++ '/' :: indexStr
          = rewriteSeg s1 ++ '/' :: (rewriteSegs (s3 :: rest3) ++ '/' :: indexStr)
          from by simp]
        exact if_neg fun hcond => hr1ne ((pagesPrefix_append_iff hslash1).mp hcond)
    rw [urlFinish, hps, indexStrip_append, hY, leadingSlash_ne_slash hc0, rootCase_cons]
    rw [parentUrl, stripPagesSeg_eq_self rest hp]
    rw [show joinWith ['/'] (List.map rewriteSeg (s1 :: rest))
      = rewriteSegs (s1 :: rest) from rfl]
    rw [hY, if_neg (by simp), leadingSlash_ne_slash hc0]

theorem index_maps_to_parent_witness :
    filePathToUrlPath (joinSegs ([.plain "api".data, .plain "users".data]
        ++ [.plain indexStr]) ++ ".ts".data)
      = parentUrl [.plain "api".data, .plain "users".data] :=
  index_maps_to_parent (by decide) (by decide) (by decide)

/-- C2 fails for an `index` file at the top of the routes directory: the
code maps `index.ts` to `/index`, not to the parent directory's URL `/`
(the `/\/index$/` regex needs a slash before `index`). -/
theorem index_top_level_counterexample :
    filePathToUrlPath "index.ts".data = "/index".data
    ∧ "/index".data ≠ ("/".data : Str) :=
  ⟨by decide, by decide⟩

/-! ## The `pages` prefix: stripped from URLs, kept for middleware (C6) -/

theorem dropWhile_head_not {p : Char → Bool} :
    ∀ {l : Str}, (∃ c ∈ l, p c = false) →
      ∃ c t, l.dropWhile p = c :: t ∧ p c = false := by
  intro l
  induction l with
  | nil => rintro ⟨c, hc, -⟩; exact absurd hc (by simp)
  | cons e r ih =>
    rintro ⟨c, hc, hpc⟩
    rw [List.dropWhile_cons]
    cases hpe : p e with
    | false => exact ⟨e, r, by simp, hpe⟩
    | true =>
      have hcr : c ∈ r := by
        rcases List.mem_cons.mp hc with h1 | h1
        · subst h1; rw [hpe] at hpc; exact absurd hpc (by simp)
        · exact h1
      simpa using ih ⟨c, hcr, hpc⟩

theorem dropWhile_head_neg {p : Char → Bool} :
    ∀ {l : Str} {c : Char} {t : Str}, l.dropWhile p = c :: t → p c = false := by
  intro l
  induction l with
  | nil => intro c t h; exact absurd h (by simp)
  | cons e r ih =>
    intro c t h
    rw [List.dropWhile_cons] at h
    cases hpe : p e with
    | false => rw [hpe] at h; simp at h; rw [← h.1]; exact hpe
    | true => rw [hpe] at h; simp at h; exact ih h

/-- The directory of a route file under `pages/` is `pages` itself or a
subdirectory `pages/…`. -/
theorem dirname_under_pages {rest : Str} (hrest : ∃ c ∈ rest, c ≠ '/') :
    dirname (pagesStr ++ '/' :: rest) = pagesStr
    ∨ ∃ X, dirname (pagesStr ++ '/' :: rest) = pagesStr ++ '/' :: X := by
  have hne : pagesStr ++ '/' :: rest ≠ [] := by simp [pagesStr]
  have hhead : (pagesStr ++ '/' :: rest).head? = some 'p' := rfl
  have hrev : (pagesStr ++ '/' :: rest).reverse
      = rest.reverse ++ '/' :: pagesStr.reverse := by
    simp
  obtain ⟨c1, t1, hr1, hc1⟩ := dropWhile_head_not (p := (· == '/'))
    (l := rest.reverse) (by
      obtain ⟨c, hc, hcne⟩ := hrest
      exact ⟨c, by simpa using hc, by simp [hcne]⟩)
  have ha : (rest.reverse ++ '/' :: pagesStr.reverse).dropWhile (· == '/')
      = c1 :: (t1 ++ '/' :: pagesStr.reverse) := by
    rw [List.dropWhile_append, hr1]
    simp
  rw [dirname, if_neg hne, hrev, ha]
  cases hAd : (c1 :: t1).dropWhile (· != '/') with
  | nil =>
    have hb : ((c1 :: (t1 ++ '/' :: pagesStr.reverse)).dropWhile (· != '/'))
        = '/' :: pagesStr.reverse := by
      rw [show (c1 :: (t1 ++ '/' :: pagesStr.reverse))
        = (c1 :: t1) ++ '/' :: pagesStr.reverse from by simp,
        List.dropWhile_append, hAd]
      simp [List.dropWhile_cons]
    rw [hb]
    left
    rw [if_pos (by simp [pagesStr]), if_neg (by rw [hhead]; simp [pagesStr])]
    simp
  | cons d1 d2 =>
    have hd1 : d1 = '/' := by
      have hneg := dropWhile_head_neg hAd
      simpa using hneg
    subst hd1
    have hb : ((c1 :: (t1 ++ '/' :: pagesStr.reverse)).dropWhile (· != '/'))
        = '/' :: (d2 ++ '/' :: pagesStr.reverse) := by
      rw [show (c1 :: (t1 ++ '/' :: pagesStr.reverse))
        = (c1 :: t1) ++ '/' :: pagesStr.reverse from by simp,
        List.dropWhile_append, hAd]
      simp
    rw [hb]
    right
    refine ⟨d2.reverse, ?_⟩
    rw [if_pos (by simp; omega), if_neg (by rw [hhead]; simp [pagesStr])]
    simp

/-- C6: the `pages` directory prefix is stripped from registered URL
patterns — a route `pages/<segs>.<ext>` registers the URL for `<segs>`
alone, and `pages/about.ts` yields `/about` — while middleware scoping
still sees the full file path, so a middleware entry scoped to `pages`
contributes its handlers to every route file under `pages/`. -/
theorem pages_prefix_url_vs_scope {K : Type} (segs : List RouteSeg) (e : Str)
    (rest : Str) (en : MiddlewareEntry K) (es : List (MiddlewareEntry K))
    (hwf : ∀ s ∈ segs, segWF s) (hne : segs ≠ []) (he : e ∈ extCandidates)
    (hrest : ∃ c ∈ rest, c ≠ '/') (hscope : en.scope = pagesStr) :
    filePathToUrlPath (joinSegs (.plain pagesStr :: segs) ++ e)
      = rootCase (leadingSlash (indexStrip ('/' :: rewriteSegs segs)))
    ∧ filePathToUrlPath "pages/about.ts".data = "/about".data
    ∧ getMiddlewareChain (pagesStr ++ '/' :: rest) (en :: es)
      = en.handlers ++ getMiddlewareChain (pagesStr ++ '/' :: rest) es := by
  refine ⟨?_, by decide, ?_⟩
  · have hwf2 : ∀ s ∈ RouteSeg.plain pagesStr :: segs, segWF s := by
      intro s hs
      rcases List.mem_cons.mp hs with h1 | h1
      · subst h1; exact ⟨by decide, by decide⟩
      · exact hwf s h1
    rw [urlStages hwf2 he]
    obtain ⟨s2, rest2, rfl⟩ := List.exists_cons_of_ne_nil hne
    have hX : rewriteSegs (RouteSeg.plain pagesStr :: s2 :: rest2)
        = pagesStr ++ '/' :: rewriteSegs (s2 :: rest2) := by
      rw [rewriteSegs, List.map_cons, List.map_cons, joinWith, rewriteSeg]
      simp [rewriteSegs, List.map_cons, List.append_assoc]
    rw [hX, urlFinish, pagesStrip_cons]
  · have hmatch : matchesScope (dirname (pagesStr ++ '/' :: rest)) en.scope = true := by
      rw [hscope]
      rcases dirname_under_pages hrest with hd | ⟨X, hd⟩
      · rw [hd]
        simp [matchesScope]
      · rw [hd]
        have hpre : (pagesStr ++ ['/']).isPrefixOf (pagesStr ++ '/' :: X) = true :=
          List.isPrefixOf_iff_prefix.mpr ⟨X, by simp⟩
        simp [matchesScope, hpre]
    show chainLoop (dirname (pagesStr ++ '/' :: rest)) (en :: es) = _
    rw [chainLoop, if_pos hmatch]
    rfl

theorem pages_prefix_url_vs_scope_witness :
    filePathToUrlPath (joinSegs [.plain pagesStr, .plain "about".data] ++ ".ts".data)
      = rootCase (leadingSlash (indexStrip ('/' :: rewriteSegs [.plain "about".data])))
    ∧ filePathToUrlPath "pages/about.ts".data = "/about".data
    ∧ getMiddlewareChain (pagesStr ++ '/' :: "about.ts".data)
        [(⟨pagesStr, "/".data, [3]⟩ : MiddlewareEntry Nat)]
      = [3] ++ getMiddlewareChain (pagesStr ++ '/' :: "about.ts".data) [] := by
  have hmain := pages_prefix_url_vs_scope (K := Nat) [.plain "about".data] ".ts".data
    "about.ts".data ⟨pagesStr, "/".data, [3]⟩ [] (by decide) (by decide) (by decide)
    (by decide) rfl
  exact ⟨by
    have h1 := hmain.1
    rw [show joinSegs [RouteSeg.plain pagesStr, RouteSeg.plain "about".data]
      = joinSegs [RouteSeg.plain pagesStr, RouteSeg.plain "about".data] from rfl]
    exact h1, hmain.2.1, hmain.2.2⟩
